import Mathlib

/-!
Verification of the chess-analytica frequency-analysis core
(`src/chess_analytica/ChessDotCom.py`).

The `Profile` class and its helpers (`sortMovesAndFrequencies`,
`filterGameType`, `findGamesWithFEN`, `findMovesAfterFEN`, `moveTable`,
`mostCommonMove`) are embedded below.  The `Board` class is imported by the
source from `chess_analytica.Board`, whose file is not part of the sources
here; the parts of `Board` this development needs (`containsFEN`,
`getNextMove`, the `white_player` and `time_control` attributes, and move
rendering) are modelled from the specification, as marked in their doc
comments.
-/

/-- Modelled from the spec: a Move is an origin square, a destination square
and an optional promotion piece; two moves are equal iff all three fields
match (spec §3).  The source's `Board.py` (which supplies the move type used
by `ChessDotCom.py`) is not among the sources. -/
structure Move where
  fromSq : String
  toSq : String
  promo : Option Char
deriving DecidableEq

/-- Modelled from the spec: the text rendering of a move is origin square,
destination square and the optional promotion letter (spec §4.2); this is what
`str(move)` produces for the move objects used by `moveTable`. -/
def Move.toStr (m : Move) : String :=
  m.fromSq ++ m.toSq ++ (match m.promo with
    | some c => String.singleton c
    | none => "")

/-- Python's `str` applied to the value held in a move-frequency table entry:
a move renders as its notation, and the absent value (`None`) renders as the
string "None". -/
def optMoveStr : Option Move → String
  | some m => m.toStr
  | none => "None"

/-- Modelled from the spec: a Board (game record) as used by
`ChessDotCom.py`.  It carries the ordered list of positions visited (the
PositionIndex, each position given by its full notation string, length =
ply count + 1, spec §3), the ply list of moves, and the `white_player` and
`time_control` attributes that `ChessDotCom.py` reads.  The source's
`Board.py` is not among the sources. -/
structure Board where
  positions : List String
  moves : List Move
  white_player : String
  time_control : String
  hlen : positions.length = moves.length + 1

/-- Modelled from the spec: `containsPosition` — true iff the target equals
any position in the PositionIndex, start and final positions included
(spec §4.3). -/
def Board.containsFEN (b : Board) (fen : String) : Bool :=
  b.positions.contains fen

/-- Index of the first occurrence of a position in a position list. -/
def firstIdx (fen : String) : List String → Option Nat
  | [] => none
  | p :: rest => if p == fen then some 0 else (firstIdx fen rest).map (· + 1)

/-- Modelled from the spec: `nextMoveAfter` — the move played immediately
after the first occurrence of the target position, absence if the target
never occurs or occurs only as the final position (spec §4.3).  In the source
`getNextMove()` takes the target implicitly from the preceding
`containsFEN` call; here it is passed explicitly. -/
def Board.getNextMove (b : Board) (fen : String) : Option Move :=
  match firstIdx fen b.positions with
  | some i => b.moves[i]?
  | none => none

/-- One entry of the move-frequency data: the value stored in the `moves`
list (the next move found, which the source inserts without checking for
absence) paired with its entry in the `frequencies` list. -/
abbrev MoveEntry := Option Move × Nat

/-- Default entry used for out-of-range `getD` reads; all reads in the
loops below are in range. -/
def dEntry : MoveEntry := ((none : Option Move), 0)

/-- The body of the swap in `sortMovesAndFrequencies`
(`temp = frequencies[i]; frequencies[i] = frequencies[j]; frequencies[j] = temp`
and the same for `moves`): the two parallel lists are swapped in lockstep at
the same indices, so they are modelled as one list of pairs. -/
def swapEntries (l : List MoveEntry) (i j : Nat) : List MoveEntry :=
  (l.set i (l.getD j dEntry)).set j (l.getD i dEntry)

/-- The inner loop `for j in range(i+1, len(frequencies))` of
`sortMovesAndFrequencies`, with the remaining iteration count made explicit
(`fuel` = number of loop iterations left, so the recursion is structural). -/
def innerGo : Nat → List MoveEntry → Nat → Nat → List MoveEntry
  | 0, l, _, _ => l
  | fuel + 1, l, i, j =>
      if j < l.length then
        innerGo fuel
          (if (l.getD i dEntry).2 < (l.getD j dEntry).2 then swapEntries l i j else l)
          i (j + 1)
      else l

/-- The outer loop `for i in range(len(frequencies))` of
`sortMovesAndFrequencies`, again with an explicit iteration count. -/
def outerGo : Nat → List MoveEntry → Nat → List MoveEntry
  | 0, l, _ => l
  | fuel + 1, l, i =>
      if i < l.length then outerGo fuel (innerGo (l.length - (i + 1)) l i (i + 1)) (i + 1)
      else l

/-- The exchange sort of `sortMovesAndFrequencies` on the paired table. -/
def sortPairs (l : List MoveEntry) : List MoveEntry :=
  outerGo l.length l 0

/-- `sortMovesAndFrequencies(moves, frequencies)`: the pairwise-swap sort of
the source, sorting the two index-aligned lists by descending frequency. -/
def sortMovesAndFrequencies (moves : List (Option Move)) (frequencies : List Nat) :
    List (Option Move) × List Nat :=
  let sorted := sortPairs (moves.zip frequencies)
  (sorted.map Prod.fst, sorted.map Prod.snd)

/-- The table update of `findMovesAfterFEN`: if the move is already a key
(`next_move in moves`), increment the frequency at its index
(`frequencies[moves.index(next_move)] += 1` — the first, and by construction
only, entry with that key); otherwise append the move with frequency 1.
Written as structural recursion over the paired table. -/
def updateFreqs : List MoveEntry → Option Move → List MoveEntry
  | [], nm => [(nm, 1)]
  | e :: rest, nm =>
      if e.1 == nm then (e.1, e.2 + 1) :: rest else e :: updateFreqs rest nm

/-- The player record (`Profile`).  `info`, `stats` and the raw game data are
opaque payloads fetched from the network; they are carried as uninterpreted
values since the analysis code never inspects them. -/
structure Profile where
  username : String
  info : String
  stats : String
  games_data : List String
  current_games_data : List String
  all_games : List Board
  current_games : List Board
  games : List Board

/-- The board-building tail of `Profile.__init__` (after the data has been
fetched or loaded): `all_games` is built from `games_data`, the loop filling
`current_games` iterates over `self.current_games` — the list that was just
set to `[]` — so `current_games` stays empty, and `games` is set to
`all_games`.  `parseBoard` stands for the `Board(game['pgn'])` construction,
whose code is not among the sources. -/
def Profile.init (parseBoard : String → Board) (username info stats : String)
    (games_data current_games_data : List String) : Profile :=
  { username := username
    info := info
    stats := stats
    games_data := games_data
    current_games_data := current_games_data
    all_games := games_data.map parseBoard
    current_games := []
    games := games_data.map parseBoard }

/-- Python's `str.lower`, applied character by character. -/
def strLower (s : String) : String :=
  ⟨s.data.map Char.toLower⟩

/-- `Profile.filterGameType`: clears `games`, then refills it.  A selector
containing the character 0 (`"0" in type`) is treated as a literal
time-control token and matched exactly; otherwise the lowercased selector is
compared with the symbolic classes, and an unrecognized selector leaves
`games` empty. -/
def Profile.filterGameType (p : Profile) (type : String) : Profile :=
  let games : List Board :=
    if type.data.contains '0' then
      p.all_games.filter (fun g => g.time_control == type)
    else
      let t := strLower type
      if t == "all" then p.all_games
      else if t == "rapid" then
        p.all_games.filter (fun g =>
          g.time_control == "600" || g.time_control == "900+10" || g.time_control == "1800")
      else if t == "bullet" then
        p.all_games.filter (fun g =>
          g.time_control == "60" || g.time_control == "60+1" || g.time_control == "120+0")
      else if t == "blitz" then
        p.all_games.filter (fun g =>
          g.time_control == "180" || g.time_control == "180+2" || g.time_control == "300")
      else if t == "daily" then
        p.all_games.filter (fun g => g.time_control == "86400")
      else []
  { p with games := games }

/-- `Profile.findGamesWithFEN`: the games of the active list that contain the
given position. -/
def Profile.findGamesWithFEN (p : Profile) (fen : String) : List Board :=
  p.games.filter (fun b => b.containsFEN fen)

/-- The accumulation loop of `findMovesAfterFEN`: over the games containing
the position, keep those where the analyzed player has the selected color and
tally each game's next move (the value returned by `getNextMove`, inserted
without an absence check). -/
def Profile.accumulateMoves (p : Profile) (fen : String) (white : Bool) :
    List MoveEntry :=
  (p.findGamesWithFEN fen).foldl
    (fun tbl game =>
      if (game.white_player == p.username) == white then
        updateFreqs tbl (game.getNextMove fen)
      else tbl)
    []

/-- `Profile.findMovesAfterFEN`: accumulate the next-move frequencies, then
sort the paired lists with `sortMovesAndFrequencies`. -/
def Profile.findMovesAfterFEN (p : Profile) (fen : String) (white : Bool) :
    List (Option Move) × List Nat :=
  let tbl := p.accumulateMoves fen white
  sortMovesAndFrequencies (tbl.map Prod.fst) (tbl.map Prod.snd)

/-- `Profile.moveTable`: one line `str(moves[i]) + ": " + str(frequencies[i])`
per index, newline after each, accumulated left to right. -/
def Profile.moveTable (p : Profile) (fen : String) (white : Bool) : String :=
  let mf := p.findMovesAfterFEN fen white
  (List.range mf.1.length).foldl
    (fun s i => s ++ optMoveStr (mf.1.getD i none) ++ ": " ++ toString (mf.2.getD i 0) ++ "\n")
    ""

/-- `Profile.mostCommonMove`: `moves[0]` of the sorted move list; indexing an
empty list raises `IndexError`, modelled as the error case. -/
def Profile.mostCommonMove (p : Profile) (fen : String) (white : Bool) :
    Except String (Option Move) :=
  match (p.findMovesAfterFEN fen white).1 with
  | [] => Except.error "IndexError: list index out of range"
  | m :: _ => Except.ok m

/-- The number of games of the active list that contain the position, in
which the analyzed player has the selected color, and whose next move after
the position is the given table key. -/
def countQual (p : Profile) (fen : String) (white : Bool) (k : Option Move) : Nat :=
  p.games.countP (fun g =>
    g.containsFEN fen && ((g.white_player == p.username) == white) && (g.getNextMove fen == k))

/-- First value stored under a key in the paired table (0 if absent);
verification helper. -/
def lookup0 : List MoveEntry → Option Move → Nat
  | [], _ => 0
  | e :: rest, k => if e.1 == k then e.2 else lookup0 rest k

/-- The keys of the paired table are pairwise distinct; `updateFreqs`
establishes and preserves this. -/
def NodupKeys (tbl : List MoveEntry) : Prop :=
  (tbl.map Prod.fst).Nodup

/-! Concrete fixtures used by the scenario theorems, counterexamples and
witnesses below. -/

/-- Test fixture: a profile of the player "hero" whose archived and active
game lists are the given boards. -/
def mkProfile (gs : List Board) : Profile :=
  { username := "hero", info := "", stats := "", games_data := [],
    current_games_data := [], all_games := gs, current_games := [], games := gs }

/-- Test fixture: a one-move game of "hero" reaching "after" from "start". -/
def mkTestBoard (m : Move) : Board :=
  ⟨["start", "after"], [m], "hero", "600", rfl⟩

def mA : Move := ⟨"a2", "a3", none⟩

def mB : Move := ⟨"b2", "b3", none⟩

def mC : Move := ⟨"c2", "c3", none⟩

def mG1f3 : Move := ⟨"g1", "f3", none⟩

def mD2d4 : Move := ⟨"d2", "d4", none⟩

def mD1h5 : Move := ⟨"d1", "h5", none⟩

/-- Corpus for the tie-break counterexample: next moves `mA`, `mB`, `mC`,
`mC` in corpus order, so the accumulated table is `[(mA,1), (mB,1), (mC,2)]`. -/
def pC1 : Profile :=
  mkProfile [mkTestBoard mA, mkTestBoard mB, mkTestBoard mC, mkTestBoard mC]

/-- The spec scenario corpus: three games of White "hero" reaching "start",
with next moves g1f3, g1f3, d2d4. -/
def pScenario : Profile :=
  mkProfile [mkTestBoard mG1f3, mkTestBoard mG1f3, mkTestBoard mD2d4]

/-- Corpus realizing the spec's `moveTable` example {g1f3:158, d1h5:27,
d2d4:26}, inserted in the order g1f3, d2d4, d1h5. -/
def pBig : Profile :=
  mkProfile (List.replicate 158 (mkTestBoard mG1f3)
    ++ List.replicate 26 (mkTestBoard mD2d4)
    ++ List.replicate 27 (mkTestBoard mD1h5))

/-- A game that ends exactly at the target position "endfen": no move
follows it. -/
def bFinal : Board := ⟨["endfen"], [], "hero", "600", rfl⟩

def pFinal : Profile := mkProfile [bFinal]

/-- A board whose recorded time control "15" contains no character 0. -/
def b15 : Board := ⟨["s"], [], "hero", "15", rfl⟩

def pLit : Profile := mkProfile [b15]

def b600 : Board := ⟨["s"], [], "hero", "600", rfl⟩

def pW600 : Profile := mkProfile [b600]

/-- A game that reaches "start" but in which the analyzed player "hero" is
not White ("villain" is), so no game matches a White query. -/
def bBlack : Board := ⟨["start", "after"], [mG1f3], "villain", "600", rfl⟩

def pNoMatch : Profile := mkProfile [bBlack]

/-! Basic lemmas about the exchange-sort loops. -/

theorem length_swapEntries (l : List MoveEntry) (i j : Nat) :
    (swapEntries l i j).length = l.length := by
  simp [swapEntries]

theorem innerGo_length (fuel : Nat) :
    ∀ (l : List MoveEntry) (i j : Nat), (innerGo fuel l i j).length = l.length := by
  induction fuel with
  | zero => intro l i j; rfl
  | succ fuel ih =>
    intro l i j
    simp only [innerGo]
    split
    · split
      · rw [ih, length_swapEntries]
      · rw [ih]
    · rfl

theorem outerGo_length (fuel : Nat) :
    ∀ (l : List MoveEntry) (i : Nat), (outerGo fuel l i).length = l.length := by
  induction fuel with
  | zero => intro l i; rfl
  | succ fuel ih =>
    intro l i
    simp only [outerGo]
    split
    · rw [ih, innerGo_length]
    · rfl

theorem sortPairs_length (l : List MoveEntry) : (sortPairs l).length = l.length :=
  outerGo_length l.length l 0

theorem getD_set_self {α : Type} (l : List α) (i : Nat) (x d : α) (h : i < l.length) :
    (l.set i x).getD i d = x := by
  simp [List.getD_eq_getElem?_getD, List.getElem?_set_self, h]

theorem getD_set_ne {α : Type} (l : List α) {i k : Nat} (x d : α) (h : i ≠ k) :
    (l.set i x).getD k d = l.getD k d := by
  simp [List.getD_eq_getElem?_getD, List.getElem?_set_ne h]

theorem getD_swapEntries_left (l : List MoveEntry) {i j : Nat} (hi : i < l.length)
    (hij : i ≠ j) : (swapEntries l i j).getD i dEntry = l.getD j dEntry := by
  unfold swapEntries
  rw [getD_set_ne _ _ _ (Ne.symm hij), getD_set_self _ _ _ _ hi]

theorem getD_swapEntries_right (l : List MoveEntry) {i j : Nat} (hj : j < l.length) :
    (swapEntries l i j).getD j dEntry = l.getD i dEntry := by
  unfold swapEntries
  rw [getD_set_self]
  rw [List.length_set]
  exact hj

theorem getD_swapEntries_other (l : List MoveEntry) {i j k : Nat} (hki : k ≠ i)
    (hkj : k ≠ j) : (swapEntries l i j).getD k dEntry = l.getD k dEntry := by
  unfold swapEntries
  rw [getD_set_ne _ _ _ (Ne.symm hkj), getD_set_ne _ _ _ (Ne.symm hki)]

theorem getD_cons_set_perm {α : Type} (d : α) :
    ∀ (t : List α) (k : Nat) (x : α), k < t.length →
      List.Perm (t.getD k d :: t.set k x) (x :: t) := by
  intro t
  induction t with
  | nil => intro k x hk; simp at hk
  | cons y s ih =>
    intro k x hk
    cases k with
    | zero =>
      simp only [List.getD_cons_zero, List.set_cons_zero]
      exact List.Perm.swap x y s
    | succ k =>
      simp only [List.getD_cons_succ, List.set_cons_succ]
      have h1 : List.Perm (s.getD k d :: y :: s.set k x) (y :: s.getD k d :: s.set k x) :=
        List.Perm.swap y (s.getD k d) (s.set k x)
      have h2 : List.Perm (y :: s.getD k d :: s.set k x) (y :: x :: s) :=
        (ih k x (by simpa using hk)).cons y
      exact h1.trans (h2.trans (List.Perm.swap x y s))

theorem swapEntries_perm :
    ∀ (l : List MoveEntry) (i j : Nat), i < j → j < l.length →
      List.Perm (swapEntries l i j) l := by
  intro l
  induction l with
  | nil => intro i j _ hj; simp at hj
  | cons e t ih =>
    intro i j hij hj
    cases i with
    | zero =>
      cases j with
      | zero => omega
      | succ j =>
        have hjt : j < t.length := by simpa using hj
        show List.Perm (((e :: t).set 0 ((e :: t).getD (j + 1) dEntry)).set (j + 1)
          ((e :: t).getD 0 dEntry)) (e :: t)
        simp only [List.getD_cons_succ, List.getD_cons_zero, List.set_cons_zero,
          List.set_cons_succ]
        exact getD_cons_set_perm dEntry t j e hjt
    | succ i =>
      cases j with
      | zero => omega
      | succ j =>
        have hjt : j < t.length := by simpa using hj
        show List.Perm (((e :: t).set (i + 1) ((e :: t).getD (j + 1) dEntry)).set (j + 1)
          ((e :: t).getD (i + 1) dEntry)) (e :: t)
        simp only [List.getD_cons_succ, List.set_cons_succ]
        exact (ih i j (by omega) hjt).cons e

theorem innerGo_perm (fuel : Nat) :
    ∀ (l : List MoveEntry) (i j : Nat), i < j → List.Perm (innerGo fuel l i j) l := by
  induction fuel with
  | zero => intro l i j _; exact List.Perm.refl l
  | succ fuel ih =>
    intro l i j hij
    simp only [innerGo]
    split
    · split
      · exact (ih _ i (j + 1) (by omega)).trans
          (swapEntries_perm l i j hij (by assumption))
      · exact ih _ i (j + 1) (by omega)
    · exact List.Perm.refl l

theorem outerGo_perm (fuel : Nat) :
    ∀ (l : List MoveEntry) (i : Nat), List.Perm (outerGo fuel l i) l := by
  induction fuel with
  | zero => intro l i; exact List.Perm.refl l
  | succ fuel ih =>
    intro l i
    simp only [outerGo]
    split
    · exact (ih _ (i + 1)).trans (innerGo_perm _ l i (i + 1) (by omega))
    · exact List.Perm.refl l

theorem sortPairs_perm (l : List MoveEntry) : List.Perm (sortPairs l) l :=
  outerGo_perm l.length l 0

/-! Sortedness of the exchange sort. -/

theorem innerGo_getD_low (fuel : Nat) :
    ∀ (l : List MoveEntry) (i j k : Nat), k < j → k ≠ i →
      (innerGo fuel l i j).getD k dEntry = l.getD k dEntry := by
  induction fuel with
  | zero => intro l i j k _ _; rfl
  | succ fuel ih =>
    intro l i j k hkj hki
    simp only [innerGo]
    split
    · split
      · rw [ih _ i (j + 1) k (by omega) hki,
          getD_swapEntries_other l hki (by omega)]
      · rw [ih _ i (j + 1) k (by omega) hki]
    · rfl

theorem innerGo_bound (fuel : Nat) :
    ∀ (l : List MoveEntry) (i j : Nat) (B : Nat), i < j →
      (∀ k, i ≤ k → k < l.length → (l.getD k dEntry).2 ≤ B) →
      ∀ k, i ≤ k → k < l.length → ((innerGo fuel l i j).getD k dEntry).2 ≤ B := by
  induction fuel with
  | zero => intro l i j B _ hB k hik hkl; exact hB k hik hkl
  | succ fuel ih =>
    intro l i j B hij hB k hik hkl
    simp only [innerGo]
    split
    · rename_i hjl
      split
      · have hi : i < l.length := by omega
        have hB2 : ∀ m, i ≤ m → m < (swapEntries l i j).length →
            ((swapEntries l i j).getD m dEntry).2 ≤ B := by
          intro m him hml
          rw [length_swapEntries] at hml
          by_cases hmi : m = i
          · subst hmi
            rw [getD_swapEntries_left l hi (by omega)]
            exact hB j (by omega) hjl
          · by_cases hmj : m = j
            · subst hmj
              rw [getD_swapEntries_right l hjl]
              exact hB i (le_refl i) hi
            · rw [getD_swapEntries_other l hmi hmj]
              exact hB m him hml
        exact ih (swapEntries l i j) i (j + 1) B (by omega) hB2
          k hik (by rw [length_swapEntries]; exact hkl)
      · exact ih l i (j + 1) B (by omega) hB k hik hkl
    · exact hB k hik hkl

theorem innerGo_dom (fuel : Nat) :
    ∀ (l : List MoveEntry) (i j : Nat), i < j → l.length ≤ j + fuel →
      (∀ k, i < k → k < j → (l.getD k dEntry).2 ≤ (l.getD i dEntry).2) →
      ∀ k, i < k → k < l.length →
        ((innerGo fuel l i j).getD k dEntry).2 ≤ ((innerGo fuel l i j).getD i dEntry).2 := by
  induction fuel with
  | zero =>
    intro l i j hij hlen hdom k hik hkl
    exact hdom k hik (by omega)
  | succ fuel ih =>
    intro l i j hij hlen hdom k hik hkl
    simp only [innerGo]
    split
    · rename_i hjl
      have hi : i < l.length := by omega
      split
      · rename_i hswap
        have hdom2 : ∀ m, i < m → m < j + 1 →
            ((swapEntries l i j).getD m dEntry).2 ≤ ((swapEntries l i j).getD i dEntry).2 := by
          intro m him hmj
          rw [getD_swapEntries_left l hi (by omega)]
          by_cases hmjeq : m = j
          · subst hmjeq
            rw [getD_swapEntries_right l hjl]
            omega
          · rw [getD_swapEntries_other l (by omega) hmjeq]
            have := hdom m him (by omega)
            omega
        exact ih (swapEntries l i j) i (j + 1) (by omega)
          (by rw [length_swapEntries]; omega) hdom2 k hik
          (by rw [length_swapEntries]; exact hkl)
      · rename_i hnoswap
        have hdom2 : ∀ m, i < m → m < j + 1 →
            (l.getD m dEntry).2 ≤ (l.getD i dEntry).2 := by
          intro m him hmj
          by_cases hmjeq : m = j
          · subst hmjeq; omega
          · exact hdom m him (by omega)
        exact ih l i (j + 1) (by omega) (by omega) hdom2 k hik hkl
    · exact hdom k hik (by omega)

theorem outerGo_sorted (fuel : Nat) :
    ∀ (l : List MoveEntry) (i : Nat), l.length ≤ i + fuel →
      (∀ a b, a < b → b < l.length → a < i →
        (l.getD b dEntry).2 ≤ (l.getD a dEntry).2) →
      ∀ a b, a < b → b < (outerGo fuel l i).length →
        ((outerGo fuel l i).getD b dEntry).2 ≤ ((outerGo fuel l i).getD a dEntry).2 := by
  induction fuel with
  | zero =>
    intro l i hlen hinv a b hab hbl
    simp only [outerGo] at hbl ⊢
    exact hinv a b hab hbl (by omega)
  | succ fuel ih =>
    intro l i hlen hinv a b hab hbl
    have hbl2 : b < l.length := by rw [outerGo_length] at hbl; exact hbl
    simp only [outerGo]
    split
    · rename_i hil
      have hlen1 : (innerGo (l.length - (i + 1)) l i (i + 1)).length = l.length :=
        innerGo_length _ l i (i + 1)
      have hinv1 : ∀ a b, a < b → b < (innerGo (l.length - (i + 1)) l i (i + 1)).length →
          a < i + 1 →
          ((innerGo (l.length - (i + 1)) l i (i + 1)).getD b dEntry).2
            ≤ ((innerGo (l.length - (i + 1)) l i (i + 1)).getD a dEntry).2 := by
        intro x y hxy hyl hxi
        rw [hlen1] at hyl
        by_cases hxi2 : x < i
        · rw [innerGo_getD_low _ l i (i + 1) x (by omega) (by omega)]
          have hbound : ∀ k, i ≤ k → k < l.length →
              (l.getD k dEntry).2 ≤ (l.getD x dEntry).2 := by
            intro k hik hkl
            exact hinv x k (by omega) hkl hxi2
          by_cases hyi : y < i
          · rw [innerGo_getD_low _ l i (i + 1) y (by omega) (by omega)]
            exact hinv x y hxy hyl hxi2
          · exact innerGo_bound _ l i (i + 1) _ (by omega) hbound y (by omega) hyl
        · have hxi3 : x = i := by omega
          subst hxi3
          exact innerGo_dom _ l x (x + 1) (by omega) (by omega)
            (by intro k h1 h2; omega) y hxy hyl
      exact ih (innerGo (l.length - (i + 1)) l i (i + 1)) (i + 1)
        (by rw [hlen1]; omega) hinv1 a b hab
        (by rw [outerGo_length, hlen1]; exact hbl2)
    · exact hinv a b hab hbl2 (by omega)

theorem sortPairs_sorted (l : List MoveEntry) :
    ∀ a b, a < b → b < (sortPairs l).length →
      ((sortPairs l).getD b dEntry).2 ≤ ((sortPairs l).getD a dEntry).2 := by
  intro a b hab hbl
  exact outerGo_sorted l.length l 0 (by omega) (by intro a b _ _ h; omega) a b hab hbl

/-! The exchange sort leaves an already-non-increasing table unchanged. -/

theorem innerGo_id (fuel : Nat) :
    ∀ (l : List MoveEntry) (i j : Nat), i < l.length → i < j →
      (∀ a b, a < b → b < l.length → (l.getD b dEntry).2 ≤ (l.getD a dEntry).2) →
      innerGo fuel l i j = l := by
  induction fuel with
  | zero => intro l i j _ _ _; rfl
  | succ fuel ih =>
    intro l i j hi hij hsorted
    simp only [innerGo]
    split
    · rename_i hjl
      have hle : (l.getD j dEntry).2 ≤ (l.getD i dEntry).2 := hsorted i j hij hjl
      rw [if_neg (by omega)]
      exact ih l i (j + 1) hi (by omega) hsorted
    · rfl

theorem outerGo_id (fuel : Nat) :
    ∀ (l : List MoveEntry) (i : Nat),
      (∀ a b, a < b → b < l.length → (l.getD b dEntry).2 ≤ (l.getD a dEntry).2) →
      outerGo fuel l i = l := by
  induction fuel with
  | zero => intro l i _; rfl
  | succ fuel ih =>
    intro l i hsorted
    simp only [outerGo]
    split
    · rename_i hil
      rw [innerGo_id _ l i (i + 1) hil (by omega) hsorted]
      exact ih l (i + 1) hsorted
    · rfl

theorem sortPairs_id (l : List MoveEntry)
    (hsorted : ∀ a b, a < b → b < l.length → (l.getD b dEntry).2 ≤ (l.getD a dEntry).2) :
    sortPairs l = l :=
  outerGo_id l.length l 0 hsorted

/-! Correctness of the accumulated frequency table. -/

theorem lookup0_updateFreqs_self :
    ∀ (tbl : List MoveEntry) (nm : Option Move),
      lookup0 (updateFreqs tbl nm) nm = lookup0 tbl nm + 1 := by
  intro tbl
  induction tbl with
  | nil => intro nm; simp [updateFreqs, lookup0]
  | cons e rest ih =>
    intro nm
    by_cases h : (e.1 == nm) = true
    · simp [updateFreqs, lookup0, h]
    · simp only [updateFreqs, lookup0, h, Bool.false_eq_true, if_false, if_neg]
      exact ih nm

theorem lookup0_updateFreqs_ne :
    ∀ (tbl : List MoveEntry) (nm k : Option Move), k ≠ nm →
      lookup0 (updateFreqs tbl nm) k = lookup0 tbl k := by
  intro tbl
  induction tbl with
  | nil =>
    intro nm k hk
    have : (nm == k) = false := by
      rw [beq_eq_false_iff_ne]
      exact fun he => hk he.symm
    simp [updateFreqs, lookup0, this]
  | cons e rest ih =>
    intro nm k hk
    by_cases h : (e.1 == nm) = true
    · have he1 : e.1 = nm := eq_of_beq h
      have : (e.1 == k) = false := by
        rw [beq_eq_false_iff_ne]
        rw [he1]
        exact fun he => hk he.symm
      simp [updateFreqs, lookup0, h, this]
    · by_cases h2 : (e.1 == k) = true
      · simp [updateFreqs, lookup0, h, h2]
      · simp only [updateFreqs, lookup0, h, h2, Bool.false_eq_true, if_false, if_neg]
        exact ih nm k hk

theorem mem_keys_updateFreqs :
    ∀ (tbl : List MoveEntry) (nm k : Option Move),
      k ∈ (updateFreqs tbl nm).map Prod.fst → k ∈ tbl.map Prod.fst ∨ k = nm := by
  intro tbl
  induction tbl with
  | nil => intro nm k hk; simp [updateFreqs] at hk; right; exact hk
  | cons e rest ih =>
    intro nm k hk
    by_cases h : (e.1 == nm) = true
    · simp only [updateFreqs, h, if_pos, List.map_cons, List.mem_cons] at hk
      rcases hk with hk | hk
      · left; simp [hk]
      · left; simp [hk]
    · simp only [updateFreqs, h, Bool.false_eq_true, if_false, if_neg, List.map_cons,
        List.mem_cons] at hk
      rcases hk with hk | hk
      · left; simp [hk]
      · rcases ih nm k hk with hk2 | hk2
        · left; simp [hk2]
        · right; exact hk2

theorem nodupKeys_updateFreqs :
    ∀ (tbl : List MoveEntry) (nm : Option Move),
      NodupKeys tbl → NodupKeys (updateFreqs tbl nm) := by
  intro tbl
  induction tbl with
  | nil => intro nm _; simp [updateFreqs, NodupKeys]
  | cons e rest ih =>
    intro nm hnd
    unfold NodupKeys at hnd
    rw [List.map_cons, List.nodup_cons] at hnd
    by_cases h : (e.1 == nm) = true
    · unfold NodupKeys
      simp only [updateFreqs, h, if_pos, List.map_cons, List.nodup_cons]
      exact hnd
    · unfold NodupKeys
      simp only [updateFreqs, h, Bool.false_eq_true, if_false, if_neg, List.map_cons,
        List.nodup_cons]
      constructor
      · intro hmem
        rcases mem_keys_updateFreqs rest nm e.1 hmem with hk | hk
        · exact hnd.1 hk
        · exact absurd hk (by simpa using h)
      · exact ih nm hnd.2

theorem lookup0_entry :
    ∀ (tbl : List MoveEntry), NodupKeys tbl → ∀ e ∈ tbl, lookup0 tbl e.1 = e.2 := by
  intro tbl
  induction tbl with
  | nil => intro _ e he; simp at he
  | cons hd rest ih =>
    intro hnd e he
    unfold NodupKeys at hnd
    rw [List.map_cons, List.nodup_cons] at hnd
    rcases List.mem_cons.mp he with he | he
    · subst he
      simp [lookup0]
    · have hne : (hd.1 == e.1) = false := by
        rw [beq_eq_false_iff_ne]
        intro hcontra
        exact hnd.1 (hcontra ▸ List.mem_map_of_mem Prod.fst he)
      simp only [lookup0, hne, Bool.false_eq_true, if_false, if_neg]
      exact ih hnd.2 e he

theorem foldl_update_lookup0 (q : Board → Bool) (key : Board → Option Move) :
    ∀ (gs : List Board) (tbl : List MoveEntry) (k : Option Move),
      lookup0 (gs.foldl (fun t g => if q g then updateFreqs t (key g) else t) tbl) k
        = lookup0 tbl k + gs.countP (fun g => q g && (key g == k)) := by
  intro gs
  induction gs with
  | nil => intro tbl k; simp
  | cons g gs ih =>
    intro tbl k
    rw [List.foldl_cons, List.countP_cons]
    by_cases hq : q g = true
    · rw [if_pos hq]
      rw [ih (updateFreqs tbl (key g)) k]
      by_cases hk : (key g == k) = true
      · have : key g = k := eq_of_beq hk
        subst this
        rw [lookup0_updateFreqs_self tbl (key g)]
        simp [hq]
        omega
      · have hkf : (key g == k) = false := by simpa using hk
        have hne : k ≠ key g := by
          intro he
          subst he
          simp at hkf
        rw [lookup0_updateFreqs_ne tbl (key g) k hne]
        simp [hq, hkf]
    · rw [if_neg hq]
      rw [ih tbl k]
      have : (q g && (key g == k)) = false := by
        simp [Bool.eq_false_iff.mpr hq]
      simp [this]
  
theorem foldl_update_nodup (q : Board → Bool) (key : Board → Option Move) :
    ∀ (gs : List Board) (tbl : List MoveEntry),
      NodupKeys tbl →
      NodupKeys (gs.foldl (fun t g => if q g then updateFreqs t (key g) else t) tbl) := by
  intro gs
  induction gs with
  | nil => intro tbl h; exact h
  | cons g gs ih =>
    intro tbl h
    rw [List.foldl_cons]
    by_cases hq : q g = true
    · rw [if_pos hq]
      exact ih _ (nodupKeys_updateFreqs tbl (key g) h)
    · rw [if_neg hq]
      exact ih _ h

theorem accumulateMoves_nodup (p : Profile) (fen : String) (white : Bool) :
    NodupKeys (p.accumulateMoves fen white) := by
  unfold Profile.accumulateMoves
  exact foldl_update_nodup _ _ _ [] (by simp [NodupKeys])

theorem accumulateMoves_lookup0 (p : Profile) (fen : String) (white : Bool)
    (k : Option Move) :
    lookup0 (p.accumulateMoves fen white) k = countQual p fen white k := by
  unfold Profile.accumulateMoves Profile.findGamesWithFEN countQual
  rw [foldl_update_lookup0 (fun g => (g.white_player == p.username) == white)
    (fun g => g.getNextMove fen) (p.games.filter (fun b => b.containsFEN fen)) [] k]
  rw [List.countP_filter]
  have : lookup0 [] k = 0 := rfl
  rw [this, Nat.zero_add]
  apply List.countP_congr
  intro g _
  simp only [Bool.and_eq_true]
  tauto

theorem accumulateMoves_entry (p : Profile) (fen : String) (white : Bool) :
    ∀ e ∈ p.accumulateMoves fen white, e.2 = countQual p fen white e.1 := by
  intro e he
  rw [← accumulateMoves_lookup0 p fen white e.1]
  exact (lookup0_entry _ (accumulateMoves_nodup p fen white) e he).symm

/-! Unpacking `findMovesAfterFEN` and its output shape. -/

theorem zip_map_fst_snd (l : List MoveEntry) :
    (l.map Prod.fst).zip (l.map Prod.snd) = l := by
  induction l with
  | nil => rfl
  | cons e t ih => simp [ih]

theorem findMovesAfterFEN_def (p : Profile) (fen : String) (white : Bool) :
    p.findMovesAfterFEN fen white
      = ((sortPairs (p.accumulateMoves fen white)).map Prod.fst,
         (sortPairs (p.accumulateMoves fen white)).map Prod.snd) := by
  simp only [Profile.findMovesAfterFEN, sortMovesAndFrequencies, zip_map_fst_snd]

theorem findMovesAfterFEN_length (p : Profile) (fen : String) (white : Bool) :
    (p.findMovesAfterFEN fen white).1.length = (p.findMovesAfterFEN fen white).2.length := by
  rw [findMovesAfterFEN_def]
  simp

theorem sortMovesAndFrequencies_sorted_id (moves : List (Option Move))
    (frequencies : List Nat) (hlen : moves.length = frequencies.length)
    (hsorted : frequencies.Pairwise (fun a b => b ≤ a)) :
    sortMovesAndFrequencies moves frequencies = (moves, frequencies) := by
  have hzlen : (moves.zip frequencies).length = frequencies.length := by
    rw [List.length_zip, hlen, Nat.min_self]
  have hz : ∀ a b, a < b → b < (moves.zip frequencies).length →
      ((moves.zip frequencies).getD b dEntry).2 ≤ ((moves.zip frequencies).getD a dEntry).2 := by
    intro a b hab hbl
    have hb : b < (moves.zip frequencies).length := hbl
    have ha : a < (moves.zip frequencies).length := by omega
    rw [List.getD_eq_getElem _ dEntry ha, List.getD_eq_getElem _ dEntry hb]
    rw [List.getElem_zip, List.getElem_zip]
    exact List.pairwise_iff_getElem.mp hsorted a b (by rw [hzlen] at ha; exact ha)
      (by rw [hzlen] at hb; exact hb) hab
  unfold sortMovesAndFrequencies
  rw [sortPairs_id _ hz]
  show ((moves.zip frequencies).map Prod.fst, (moves.zip frequencies).map Prod.snd)
    = (moves, frequencies)
  rw [List.map_fst_zip moves frequencies (by omega),
    List.map_snd_zip moves frequencies (by omega)]

/-! The `moveTable` string: left fold of per-entry lines. -/

theorem join_append_single (a : List String) (x : String) :
    String.join (a ++ [x]) = String.join a ++ x := by
  show (a ++ [x]).foldl (· ++ ·) "" = a.foldl (· ++ ·) "" ++ x
  rw [List.foldl_append]
  rfl

theorem foldl_range_join (f : Nat → String) :
    ∀ n : Nat, (List.range n).foldl (fun s i => s ++ f i) "" =
      String.join ((List.range n).map f) := by
  intro n
  induction n with
  | zero => rfl
  | succ n ih =>
    rw [List.range_succ, List.foldl_append, List.map_append]
    simp only [List.map_cons, List.map_nil]
    rw [join_append_single, ih]
    rfl

theorem range_map_eq_zip_map {β : Type} (ms : List (Option Move)) (fs : List Nat)
    (hlen : ms.length = fs.length) (g : Option Move → Nat → β) :
    (List.range ms.length).map (fun i => g (ms.getD i none) (fs.getD i 0))
      = (ms.zip fs).map (fun e => g e.1 e.2) := by
  apply List.ext_getElem
  · simp [List.length_zip, hlen]
  · intro i h1 h2
    rw [List.getElem_map, List.getElem_map, List.getElem_range]
    have hi : i < ms.length := by simpa using h1
    have hif : i < fs.length := by omega
    have hiz : i < (ms.zip fs).length := by
      rw [List.length_zip, hlen, Nat.min_self]
      exact hif
    rw [List.getElem_zip]
    rw [List.getD_eq_getElem ms none hi, List.getD_eq_getElem fs 0 hif]

theorem moveTable_join (p : Profile) (fen : String) (white : Bool) :
    p.moveTable fen white
      = String.join (((p.findMovesAfterFEN fen white).1.zip
          (p.findMovesAfterFEN fen white).2).map
            (fun e => optMoveStr e.1 ++ ": " ++ toString e.2 ++ "\n")) := by
  unfold Profile.moveTable
  simp only [String.append_assoc]
  rw [foldl_range_join (fun i =>
    optMoveStr ((p.findMovesAfterFEN fen white).1.getD i none)
      ++ (": " ++ (toString ((p.findMovesAfterFEN fen white).2.getD i 0) ++ "\n")))]
  rw [range_map_eq_zip_map (p.findMovesAfterFEN fen white).1
    (p.findMovesAfterFEN fen white).2 (findMovesAfterFEN_length p fen white)
    (fun m c => optMoveStr m ++ (": " ++ (toString c ++ "\n")))]

/-! Helper lemmas for the no-match and most-common-move results. -/

theorem foldl_no_update (q : Board → Bool) (key : Board → Option Move) :
    ∀ (gs : List Board) (tbl : List MoveEntry), (∀ g ∈ gs, q g = false) →
      gs.foldl (fun t g => if q g then updateFreqs t (key g) else t) tbl = tbl := by
  intro gs
  induction gs with
  | nil => intro tbl _; rfl
  | cons g gs ih =>
    intro tbl h
    rw [List.foldl_cons, if_neg (by simp [h g (List.mem_cons_self g gs)])]
    exact ih tbl (fun g2 hg2 => h g2 (List.mem_cons_of_mem g hg2))

theorem accumulateMoves_no_match (p : Profile) (fen : String) (white : Bool)
    (h : ∀ g ∈ p.games,
      (g.containsFEN fen && ((g.white_player == p.username) == white)) = false) :
    p.accumulateMoves fen white = [] := by
  unfold Profile.accumulateMoves Profile.findGamesWithFEN
  apply foldl_no_update
  intro g hg
  rcases List.mem_filter.mp hg with ⟨hgmem, hgcontains⟩
  have := h g hgmem
  rw [hgcontains] at this
  simpa using this

theorem mostCommonMove_head (p : Profile) (fen : String) (white : Bool)
    (hne : (p.findMovesAfterFEN fen white).1 ≠ []) :
    p.mostCommonMove fen white
      = Except.ok ((p.findMovesAfterFEN fen white).1.getD 0 none) := by
  unfold Profile.mostCommonMove
  cases hms : (p.findMovesAfterFEN fen white).1 with
  | nil => exact absurd hms hne
  | cons m t => rfl

theorem head_count_max (p : Profile) (fen : String) (white : Bool) :
    ∀ c ∈ (p.findMovesAfterFEN fen white).2,
      c ≤ (p.findMovesAfterFEN fen white).2.getD 0 0 := by
  rw [findMovesAfterFEN_def]
  intro c hc
  obtain ⟨k, hkl, rfl⟩ := List.mem_iff_getElem.mp hc
  simp only [List.length_map] at hkl
  have h0 : 0 < (sortPairs (p.accumulateMoves fen white)).length := by omega
  rw [List.getD_eq_getElem _ 0 (by simpa using h0)]
  rw [List.getElem_map, List.getElem_map]
  rcases Nat.eq_zero_or_pos k with hk0 | hkpos
  · subst hk0; exact Nat.le_refl _
  · have h := sortPairs_sorted (p.accumulateMoves fen white) 0 k hkpos hkl
    rw [List.getD_eq_getElem _ dEntry hkl, List.getD_eq_getElem _ dEntry h0] at h
    exact h

/-! The claims. -/

/-- Claim C1 counterexample: in the corpus `pC1` the moves `mA` and `mB` end
with equal counts (1 each) and `mA`'s qualifying game appears first (the
accumulated table is `[(mA,1), (mB,1), (mC,2)]` in first-insertion order),
yet `findMovesAfterFEN` ranks `mB` (output index 1) before `mA` (output
index 2): the exchange sort is not stable. -/
theorem sort_ties_reverse_first_seen_order :
    pC1.accumulateMoves "start" true = [(some mA, 1), (some mB, 1), (some mC, 2)]
    ∧ pC1.findMovesAfterFEN "start" true = ([some mC, some mB, some mA], [2, 1, 1])
    ∧ (pC1.findMovesAfterFEN "start" true).2.getD 1 0
        = (pC1.findMovesAfterFEN "start" true).2.getD 2 0 :=
  ⟨by decide, by decide, by decide⟩

/-- Claim C1 (amended): the exchange sort preserves the first-insertion order
(and hence the tie order) only when the accumulated frequency sequence is
already non-increasing, in which case `sortMovesAndFrequencies` returns its
input unchanged; in general equally-frequent moves may come out in reversed
first-insertion order. -/
theorem sortMovesAndFrequencies_stable_on_sorted (moves : List (Option Move))
    (frequencies : List Nat) (hlen : moves.length = frequencies.length)
    (hsorted : frequencies.Pairwise (fun a b => b ≤ a)) :
    sortMovesAndFrequencies moves frequencies = (moves, frequencies) :=
  sortMovesAndFrequencies_sorted_id moves frequencies hlen hsorted

theorem sortMovesAndFrequencies_stable_on_sorted_witness :
    sortMovesAndFrequencies [some mA, some mB] [2, 2] = ([some mA, some mB], [2, 2]) :=
  sortMovesAndFrequencies_stable_on_sorted [some mA, some mB] [2, 2] (by decide) (by decide)

/-- Claim C2: every frequency reported by `findMovesAfterFEN` equals the
number of games of the active list that contain the position, in which the
analyzed player has the selected color, and whose next move is the entry's
move; and on the spec's three-game scenario the table is {g1f3: 2, d2d4: 1}
with `mostCommonMove` g1f3. -/
theorem findMovesAfterFEN_counts_qualifying_games :
    (∀ (p : Profile) (fen : String) (white : Bool) (i : Nat),
        i < (p.findMovesAfterFEN fen white).1.length →
        (p.findMovesAfterFEN fen white).2.getD i 0
          = countQual p fen white ((p.findMovesAfterFEN fen white).1.getD i none))
    ∧ pScenario.findMovesAfterFEN "start" true = ([some mG1f3, some mD2d4], [2, 1])
    ∧ pScenario.mostCommonMove "start" true = Except.ok (some mG1f3) := by
  refine ⟨?_, by decide, by rfl⟩
  intro p fen white i hi
  rw [findMovesAfterFEN_def] at hi ⊢
  simp only [List.length_map] at hi
  rw [List.getD_eq_getElem _ 0 (by simpa using hi),
    List.getD_eq_getElem _ none (by simpa using hi)]
  rw [List.getElem_map, List.getElem_map]
  apply accumulateMoves_entry p fen white
  exact (sortPairs_perm (p.accumulateMoves fen white)).mem_iff.mp
    (List.getElem_mem hi)

theorem findMovesAfterFEN_counts_qualifying_games_witness :
    (pScenario.findMovesAfterFEN "start" true).2.getD 0 0
      = countQual pScenario "start" true
          ((pScenario.findMovesAfterFEN "start" true).1.getD 0 none) :=
  findMovesAfterFEN_counts_qualifying_games.1 pScenario "start" true 0 (by decide)

/-- Claim C3 counterexample: with a corpus in which no game matches both the
position and the color filter, `mostCommonMove` does not report an absence
value: it evaluates `moves[0]` on the empty list, raising `IndexError`
(the error case of the model). -/
theorem mostCommonMove_raises_on_no_match :
    pNoMatch.mostCommonMove "start" true
      = Except.error "IndexError: list index out of range" := by rfl

/-- Claim C3 (amended): when no game matches the position-and-color filter,
`findMovesAfterFEN` returns the empty pair of lists and `moveTable` the empty
string — representable empty results — but `mostCommonMove` fails with an
uncaught `IndexError` instead of yielding an absence value. -/
theorem no_matching_games_results (p : Profile) (fen : String) (white : Bool)
    (h : ∀ g ∈ p.games,
      (g.containsFEN fen && ((g.white_player == p.username) == white)) = false) :
    p.findMovesAfterFEN fen white = ([], [])
    ∧ p.moveTable fen white = ""
    ∧ p.mostCommonMove fen white = Except.error "IndexError: list index out of range" := by
  have hacc : p.accumulateMoves fen white = [] := accumulateMoves_no_match p fen white h
  have hfind : p.findMovesAfterFEN fen white = ([], []) := by
    rw [findMovesAfterFEN_def, hacc]
    rfl
  refine ⟨hfind, ?_, ?_⟩
  · rw [moveTable_join, hfind]
    rfl
  · unfold Profile.mostCommonMove
    rw [hfind]

theorem no_matching_games_results_witness :
    pNoMatch.findMovesAfterFEN "start" true = ([], [])
    ∧ pNoMatch.moveTable "start" true = ""
    ∧ pNoMatch.mostCommonMove "start" true
        = Except.error "IndexError: list index out of range" :=
  no_matching_games_results pNoMatch "start" true (by decide)

/-- Claim C4 (code bug, evaluated at the failing input): the game `bFinal`
reaches the target "endfen" only as its final position, so its next move is
absent; `findMovesAfterFEN` nevertheless inserts the absent value into the
table and counts it, producing the entry (None, 1) instead of an empty
table. -/
theorem absent_next_move_is_counted :
    bFinal.containsFEN "endfen" = true
    ∧ bFinal.getNextMove "endfen" = none
    ∧ pFinal.findMovesAfterFEN "endfen" true = ([none], [1]) :=
  ⟨by decide, by decide, by decide⟩

/-- Claim C5: the pairs returned by `findMovesAfterFEN` are a permutation of
the accumulated table (each move keeps its own count), the returned
frequencies are non-increasing, every count is at most the first one, and on
a non-empty result `mostCommonMove` returns the first (maximal-count)
entry. -/
theorem findMovesAfterFEN_sorted_perm :
    ∀ (p : Profile) (fen : String) (white : Bool),
      List.Perm ((p.findMovesAfterFEN fen white).1.zip (p.findMovesAfterFEN fen white).2)
        (p.accumulateMoves fen white)
      ∧ (p.findMovesAfterFEN fen white).2.Pairwise (fun a b => b ≤ a)
      ∧ (∀ c ∈ (p.findMovesAfterFEN fen white).2,
          c ≤ (p.findMovesAfterFEN fen white).2.getD 0 0)
      ∧ ((p.findMovesAfterFEN fen white).1 ≠ [] →
          p.mostCommonMove fen white
            = Except.ok ((p.findMovesAfterFEN fen white).1.getD 0 none)) := by
  intro p fen white
  refine ⟨?_, ?_, head_count_max p fen white, mostCommonMove_head p fen white⟩
  · rw [findMovesAfterFEN_def]
    show List.Perm (((sortPairs (p.accumulateMoves fen white)).map Prod.fst).zip
      ((sortPairs (p.accumulateMoves fen white)).map Prod.snd)) _
    rw [zip_map_fst_snd]
    exact sortPairs_perm _
  · rw [findMovesAfterFEN_def]
    apply List.pairwise_iff_getElem.mpr
    intro a b ha hb hab
    simp only [List.length_map] at ha hb
    rw [List.getElem_map, List.getElem_map]
    have h := sortPairs_sorted (p.accumulateMoves fen white) a b hab hb
    rw [List.getD_eq_getElem _ dEntry hb, List.getD_eq_getElem _ dEntry ha] at h
    exact h

theorem findMovesAfterFEN_sorted_perm_witness :
    (1 : Nat) ≤ (pScenario.findMovesAfterFEN "start" true).2.getD 0 0
    ∧ pScenario.mostCommonMove "start" true
        = Except.ok ((pScenario.findMovesAfterFEN "start" true).1.getD 0 none) :=
  ⟨(findMovesAfterFEN_sorted_perm pScenario "start" true).2.2.1 1 (by decide),
   (findMovesAfterFEN_sorted_perm pScenario "start" true).2.2.2 (by decide)⟩

/-- Claim C6 counterexample: "15" is a literal time-control token recorded
among the games (`b15` carries it), yet `filterGameType "15"` leaves the
active list empty instead of selecting `b15`: the literal branch only fires
for selectors containing the character 0. -/
theorem literal_selector_without_zero_matches_nothing :
    b15.time_control = "15" ∧ b15 ∈ pLit.all_games
    ∧ (pLit.filterGameType "15").games = [] :=
  ⟨rfl, List.mem_singleton.mpr rfl, rfl⟩

/-- Claim C6 (amended): a selector containing the character 0 selects exactly
the games whose time-control string equals it (a literal token without a 0
falls through to the symbolic branch); the symbolic selectors select their
fixed enumerated sets, and "all" selects every game. -/
theorem filterGameType_selector_semantics :
    (∀ (p : Profile) (t : String), t.data.contains '0' = true →
        (p.filterGameType t).games = p.all_games.filter (fun g => g.time_control == t))
    ∧ (∀ p : Profile, (p.filterGameType "all").games = p.all_games)
    ∧ (∀ p : Profile, (p.filterGameType "rapid").games
        = p.all_games.filter (fun g =>
            g.time_control == "600" || g.time_control == "900+10"
              || g.time_control == "1800"))
    ∧ (∀ p : Profile, (p.filterGameType "bullet").games
        = p.all_games.filter (fun g =>
            g.time_control == "60" || g.time_control == "60+1"
              || g.time_control == "120+0"))
    ∧ (∀ p : Profile, (p.filterGameType "blitz").games
        = p.all_games.filter (fun g =>
            g.time_control == "180" || g.time_control == "180+2"
              || g.time_control == "300"))
    ∧ (∀ p : Profile, (p.filterGameType "daily").games
        = p.all_games.filter (fun g => g.time_control == "86400")) := by
  refine ⟨?_, fun p => rfl, fun p => rfl, fun p => rfl, fun p => rfl, fun p => rfl⟩
  intro p t h
  simp only [Profile.filterGameType, h]
  rfl

theorem filterGameType_selector_semantics_witness :
    ("600".data.contains '0') = true
    ∧ (pW600.filterGameType "600").games
        = pW600.all_games.filter (fun g => g.time_control == "600") :=
  ⟨by decide, filterGameType_selector_semantics.1 pW600 "600" (by decide)⟩

/-- Claim C7: a selector that equals no game's recorded time control and is
not (case-insensitively) one of the symbolic classes leaves the active game
list empty; no exception is involved (the embedding is a total function). -/
theorem filterGameType_unrecognized_empty (p : Profile) (t : String)
    (hlit : ∀ g ∈ p.all_games, g.time_control ≠ t)
    (h1 : strLower t ≠ "all") (h2 : strLower t ≠ "rapid") (h3 : strLower t ≠ "bullet")
    (h4 : strLower t ≠ "blitz") (h5 : strLower t ≠ "daily") :
    (p.filterGameType t).games = [] := by
  simp only [Profile.filterGameType]
  by_cases hz : t.data.contains '0' = true
  · simp only [hz, if_true]
    rw [List.filter_eq_nil_iff]
    intro g hg
    simp [hlit g hg]
  · simp only [hz, Bool.false_eq_true, if_false,
      beq_eq_false_iff_ne.mpr h1, beq_eq_false_iff_ne.mpr h2,
      beq_eq_false_iff_ne.mpr h3, beq_eq_false_iff_ne.mpr h4,
      beq_eq_false_iff_ne.mpr h5]

theorem filterGameType_unrecognized_empty_witness :
    (pW600.filterGameType "Classical").games = [] :=
  filterGameType_unrecognized_empty pW600 "Classical" (by decide) (by decide)
    (by decide) (by decide) (by decide) (by decide)

/-- Claim C8: after any `filterGameType` call the active list only holds
archived games (`all_games`), and for a profile built by the constructor the
current-games list is empty (the constructor's loop iterates the freshly
cleared list), so no current game can be in the active list. -/
theorem filterGameType_games_subset :
    (∀ (p : Profile) (t : String) (g : Board),
        g ∈ (p.filterGameType t).games → g ∈ p.all_games)
    ∧ (∀ (parseBoard : String → Board) (u i s : String) (gd cgd : List String)
        (t : String),
        ((Profile.init parseBoard u i s gd cgd).filterGameType t).current_games = []) := by
  constructor
  · intro p t g hg
    simp only [Profile.filterGameType] at hg
    split at hg
    · exact (List.mem_filter.mp hg).1
    · split at hg
      · exact hg
      · split at hg
        · exact (List.mem_filter.mp hg).1
        · split at hg
          · exact (List.mem_filter.mp hg).1
          · split at hg
            · exact (List.mem_filter.mp hg).1
            · split at hg
              · exact (List.mem_filter.mp hg).1
              · simp at hg
  · intro parseBoard u i s gd cgd t
    rfl

theorem filterGameType_games_subset_witness :
    b600 ∈ pW600.all_games
    ∧ ((Profile.init (fun _ => b600) "hero" "a" "b" ["x"] []).filterGameType
        "blitz").current_games = [] :=
  ⟨filterGameType_games_subset.1 pW600 "all" b600 (List.mem_singleton.mpr rfl),
   filterGameType_games_subset.2 (fun _ => b600) "hero" "a" "b" ["x"] [] "blitz"⟩

/-- Claim C9 counterexample: for the corpus whose single game ends at the
target position, `moveTable` prints the line "None: 1" — a line that names no
move — because the absent next move was counted as a table entry. -/
theorem moveTable_prints_none_line :
    pFinal.moveTable "endfen" true = "None: 1\n" := by decide

/-- Claim C9 (amended): `moveTable` is exactly one newline-terminated line
per table entry, `str(entry) ++ ": " ++ count`, in the sorted order of
`findMovesAfterFEN` (move entries render as their notation, an absent entry
as "None"); on the spec's example corpus it yields
"g1f3: 158\nd1h5: 27\nd2d4: 26\n". -/
theorem moveTable_entry_lines :
    (∀ (p : Profile) (fen : String) (white : Bool),
        p.moveTable fen white
          = String.join (((p.findMovesAfterFEN fen white).1.zip
              (p.findMovesAfterFEN fen white).2).map
                (fun e => optMoveStr e.1 ++ ": " ++ toString e.2 ++ "\n")))
    ∧ pBig.moveTable "start" true = "g1f3: 158\nd1h5: 27\nd2d4: 26\n" := by
  refine ⟨moveTable_join, ?_⟩
  set_option maxRecDepth 40000 in decide

/-- Claim C10: `filterGameType` changes only the `games` field — username,
info, stats, raw data, archived and current lists are untouched — and a later
`filterGameType` call gives the same result as if applied to the original
profile: the outcome depends only on the selector and `all_games`. -/
theorem filterGameType_only_sets_games :
    ∀ (p : Profile) (t : String),
      (p.filterGameType t).username = p.username
      ∧ (p.filterGameType t).info = p.info
      ∧ (p.filterGameType t).stats = p.stats
      ∧ (p.filterGameType t).games_data = p.games_data
      ∧ (p.filterGameType t).current_games_data = p.current_games_data
      ∧ (p.filterGameType t).all_games = p.all_games
      ∧ (p.filterGameType t).current_games = p.current_games
      ∧ ∀ t2 : String, (p.filterGameType t).filterGameType t2 = p.filterGameType t2 :=
  fun _ _ => ⟨rfl, rfl, rfl, rfl, rfl, rfl, rfl, fun _ => rfl⟩
